import Mathlib

/-!
Verification of the scafalra / scaffold-cli reference-resolution, fetch and
store-synchronization engine against its specification.

The development shallowly embeds the TypeScript sources:

- ordered string-keyed maps (JS plain objects and `Map`s preserve insertion
  order; assignment to an existing key updates it in place) are embedded as
  association lists with first-occurrence update (`setKV`) and first-occurrence
  removal (`eraseKV`);
- asynchronous filesystem and network effects are made explicit: functions
  return the resulting state together with a trace of effect events, and the
  outcome of an external call (HTTP status, directory listing, stat result)
  is a parameter of the embedding;
- thrown exceptions become `Except` results.
-/

set_option autoImplicit false

namespace Scaf

/-! ## Ordered association lists (JS object / Map semantics) -/

/-- Lookup of the value stored under a key (first occurrence). -/
def getKV {α : Type} : List (String × α) → String → Option α
  | [], _ => none
  | (k0, v0) :: t, k => if k0 = k then some v0 else getKV t k

/-- Key-membership test, `hasOwn` / `Map.has` in the source. -/
def hasKV {α : Type} (l : List (String × α)) (k : String) : Bool :=
  (getKV l k).isSome

/-- Assignment `obj[k] = v` / `Map.set`: updates an existing key in place,
otherwise appends at the end (insertion order is preserved). -/
def setKV {α : Type} : List (String × α) → String → α → List (String × α)
  | [], k, v => [(k, v)]
  | (k0, v0) :: t, k, v =>
    if k0 = k then (k0, v) :: t else (k0, v0) :: setKV t k v

/-- `delete obj[k]` / `Map.delete`: removes the first occurrence of the key. -/
def eraseKV {α : Type} : List (String × α) → String → List (String × α)
  | [], _ => []
  | (k0, v0) :: t, k => if k0 = k then t else (k0, v0) :: eraseKV t k

/-- The keys of an association list. -/
def keysOf {α : Type} (l : List (String × α)) : List String := l.map (·.1)

theorem getKV_setKV_self {α : Type} (l : List (String × α)) (k : String) (v : α) :
    getKV (setKV l k v) k = some v := by
  induction l with
  | nil => simp [getKV, setKV]
  | cons h t ih =>
    by_cases hk : h.1 = k
    · simp [setKV, getKV, hk]
    · simp [setKV, getKV, hk, ih]

theorem getKV_setKV_ne {α : Type} (l : List (String × α)) (k k' : String) (v : α)
    (h : k ≠ k') : getKV (setKV l k v) k' = getKV l k' := by
  induction l with
  | nil => simp [getKV, setKV, h]
  | cons hd t ih =>
    by_cases hk : hd.1 = k
    · simp [setKV, getKV, hk, h]
    · simp [setKV, getKV, hk, ih]

theorem setKV_fresh {α : Type} (l : List (String × α)) (k : String) (v : α)
    (h : hasKV l k = false) : setKV l k v = l ++ [(k, v)] := by
  induction l with
  | nil => simp [setKV]
  | cons hd t ih =>
    simp only [hasKV, getKV] at h
    by_cases hk : hd.1 = k
    · simp [hk] at h
    · simp only [setKV, hk, if_false]
      simp only [hasKV] at ih
      simp [ih (by simpa [hk] using h)]

theorem hasKV_setKV_self {α : Type} (l : List (String × α)) (k : String) (v : α) :
    hasKV (setKV l k v) k = true := by
  simp [hasKV, getKV_setKV_self]

theorem hasKV_setKV_ne {α : Type} (l : List (String × α)) (k k' : String) (v : α)
    (h : k ≠ k') : hasKV (setKV l k v) k' = hasKV l k' := by
  simp [hasKV, getKV_setKV_ne _ _ _ _ h]

theorem getKV_append_left {α : Type} (l l' : List (String × α)) (k : String)
    (h : hasKV l k = true) : getKV (l ++ l') k = getKV l k := by
  induction l with
  | nil => simp [hasKV, getKV] at h
  | cons hd t ih =>
    by_cases hk : hd.1 = k
    · simp [getKV, hk]
    · simp only [hasKV, getKV, hk, if_false] at h ⊢
      exact ih h

/-! ## cli.ts era: `Project`, the per-process `Key` counter, `addProject`

Source: src/src/cli.ts together with src/src/utils.ts (`Key`, `hasOwn`).
A `Project` record is `{ path, remote?, hash? }`; the store is a plain JS
object keyed by project name; `changes` is display-only and is omitted. -/

structure Project where
  path : String
  remote : Option String := none
  hash : Option String := none
deriving DecidableEq, Repr

/-- The JS object store of src/src/cli.ts, `Record of string to Project`. -/
abbrev StoreObj := List (String × Project)

/-- Per-process disambiguation counters, the private `value` record of the
`Key` class in src/src/utils.ts. -/
abbrev KeyCounters := List (String × Nat)

/-- `Key.gen` (src/src/utils.ts): if the name has no counter yet the counter
starts at 1; the current value is returned and then post-incremented. -/
def keyGen (ks : KeyCounters) (name : String) : Nat × KeyCounters :=
  match getKV ks name with
  | none => (1, setKV ks name 2)
  | some n => (n, setKV ks name (n + 1))

/-- `ScaffoldCli.addProject` (src/src/cli.ts lines 55 to 64): when `replace`
is false and the name is already present, the entry is stored under the
disambiguated key `name-<counter>`; otherwise under `name` itself (updating
in place when present). Returns the key actually used. -/
def addProject (st : StoreObj) (ks : KeyCounters) (name : String)
    (proj : Project) (replace : Bool) : StoreObj × KeyCounters × String :=
  if !replace && hasKV st name then
    let g := keyGen ks name
    let realName := name ++ "-" ++ toString g.1
    (setKV st realName proj, g.2, realName)
  else
    (setKV st name proj, ks, name)

theorem string_append_right_inj {s t u : String} (h : s ++ t = s ++ u) : t = u := by
  have hd := congrArg String.data h
  rw [String.data_append, String.data_append] at hd
  exact String.ext (List.append_cancel_left hd)

theorem string_ne_append_of_data_ne_nil (s t : String) (h : t.data ≠ []) :
    s ≠ s ++ t := by
  intro he
  have hd := congrArg String.data he
  rw [String.data_append] at hd
  have hlen : s.data.length = s.data.length + t.data.length := by
    simpa [List.length_append] using congrArg List.length hd
  have hz : t.data.length = 0 := by omega
  exact h (List.eq_nil_of_length_eq_zero hz)

theorem getKV_append_right_of_not {α : Type} (l l' : List (String × α)) (k : String)
    (h : hasKV l k = false) : getKV (l ++ l') k = getKV l' k := by
  induction l with
  | nil => simp
  | cons hd t ih =>
    simp only [hasKV, getKV] at h
    by_cases hk : hd.1 = k
    · simp [hk] at h
    · simp only [List.cons_append, getKV, hk, if_false]
      exact ih (by simpa [hasKV, hk] using h)

theorem hasKV_append {α : Type} (l l' : List (String × α)) (k : String) :
    hasKV (l ++ l') k = (hasKV l k || hasKV l' k) := by
  by_cases h : hasKV l k = true
  · have hg := getKV_append_left l l' k h
    simp only [hasKV] at h ⊢
    rw [hg, h, Bool.true_or]
  · have h' : hasKV l k = false := by simpa using h
    have hg := getKV_append_right_of_not l l' k h'
    simp only [hasKV] at h' ⊢
    rw [hg, h', Bool.false_or]

theorem ne_append_dash_one_two (nm : String) : nm ++ "-1" ≠ nm ++ "-2" := by
  intro h
  have := string_append_right_inj h
  exact absurd this (by decide)

/-- Claim C6: in `addProject`, a duplicate name with `replace = false` is
stored under a fresh key `name-1`, the next duplicate under `name-2`, the
original entry staying untouched. -/
theorem C6_duplicate_names_get_fresh_keys
    (st : StoreObj) (ks : KeyCounters) (nm : String) (p1 p2 : Project)
    (hnm : hasKV st nm = true) (hks : getKV ks nm = none)
    (h1 : hasKV st (nm ++ "-1") = false) (h2 : hasKV st (nm ++ "-2") = false) :
    let r1 := addProject st ks nm p1 false
    let r2 := addProject r1.1 r1.2.1 nm p2 false
    r1.2.2 = nm ++ "-1" ∧ r2.2.2 = nm ++ "-2" ∧
    r2.1 = st ++ [(nm ++ "-1", p1), (nm ++ "-2", p2)] ∧
    getKV r2.1 nm = getKV st nm := by
  intro r1 r2
  have hname1 : nm ++ "-" ++ toString 1 = nm ++ "-1" := by
    rw [String.append_assoc]; congr 1
  have hr1 : r1 = (setKV st (nm ++ "-1") p1, setKV ks nm 2, nm ++ "-1") := by
    show addProject st ks nm p1 false = _
    rw [addProject]
    simp only [hnm, Bool.not_false, Bool.true_and, if_true, keyGen, hks, hname1]
  have hst1 : setKV st (nm ++ "-1") p1 = st ++ [(nm ++ "-1", p1)] :=
    setKV_fresh st _ p1 h1
  have hhas1 : hasKV (st ++ [(nm ++ "-1", p1)]) nm = true := by
    rw [hasKV_append, hnm]; rfl
  have hget2 : getKV (setKV ks nm 2) nm = some 2 := getKV_setKV_self ks nm 2
  have hname2 : nm ++ "-" ++ toString 2 = nm ++ "-2" := by
    rw [String.append_assoc]; congr 1
  have hfresh2 : hasKV (st ++ [(nm ++ "-1", p1)]) (nm ++ "-2") = false := by
    rw [hasKV_append, h2]
    simp [hasKV, getKV, ne_append_dash_one_two nm]
  have hr2 : r2 = (setKV (st ++ [(nm ++ "-1", p1)]) (nm ++ "-2") p2,
      setKV (setKV ks nm 2) nm 3, nm ++ "-2") := by
    show addProject r1.1 r1.2.1 nm p2 false = _
    rw [hr1]
    show addProject (setKV st (nm ++ "-1") p1) (setKV ks nm 2) nm p2 false = _
    rw [addProject, hst1]
    simp only [hhas1, Bool.not_false, Bool.true_and, if_true, keyGen, hget2, hname2]
  have hst2 : setKV (st ++ [(nm ++ "-1", p1)]) (nm ++ "-2") p2
      = st ++ [(nm ++ "-1", p1), (nm ++ "-2", p2)] := by
    rw [setKV_fresh _ _ _ hfresh2, List.append_assoc]
    rfl
  refine ⟨by rw [hr1], by rw [hr2], by rw [hr2]; exact hst2, ?_⟩
  rw [hr2]
  show getKV (setKV (st ++ [(nm ++ "-1", p1)]) (nm ++ "-2") p2) nm = getKV st nm
  rw [hst2]
  exact getKV_append_left st _ nm hnm

/-- Concrete instantiation of claim C6. -/
theorem C6_duplicate_names_get_fresh_keys_witness :
    let st : StoreObj := [("foo", ⟨"/p", none, none⟩)]
    let r1 := addProject st [] "foo" ⟨"/a", none, none⟩ false
    let r2 := addProject r1.1 r1.2.1 "foo" ⟨"/b", none, none⟩ false
    r1.2.2 = "foo" ++ "-1" ∧ r2.2.2 = "foo" ++ "-2" ∧
    r2.1 = [("foo", ⟨"/p", none, none⟩)] ++
      [("foo" ++ "-1", ⟨"/a", none, none⟩), ("foo" ++ "-2", ⟨"/b", none, none⟩)] ∧
    getKV r2.1 "foo" = getKV [("foo", (⟨"/p", none, none⟩ : Project))] "foo" :=
  C6_duplicate_names_get_fresh_keys [("foo", ⟨"/p", none, none⟩)] [] "foo"
    ⟨"/a", none, none⟩ ⟨"/b", none, none⟩ (by decide) (by decide) (by decide)
    (by decide)

/-! ## Modern era: `ScafalraItem` and the `Store` class (src/unnamed/part_001)

The store content is a JS `Map` from name to item, embedded as an ordered
association list; `save` serializes `[...this.content]`, an ordered list of
`[name, item]` pairs (the JSON layer maps that array one-to-one, so the
embedding serializes to the pair list itself); `init` parses the file back
and rebuilds the `Map`, or, when the store file does not exist, saves the
empty content immediately. The display-only `changes` map is kept only where
a claim mentions it. -/

structure ScafalraItem where
  input : String
  url : String
  sha : String
  localPath : String
deriving DecidableEq, Repr

abbrev MapStore := List (String × ScafalraItem)

/-- `new Map(pairs)`: inserts the pairs in order via `Map.set`. -/
def fromPairs {α : Type} (l : List (String × α)) : List (String × α) :=
  l.foldl (fun m p => setKV m p.1 p.2) []

/-- `Store.save` serializes the content as the ordered `[name, item]` list. -/
def storeSave (st : MapStore) : List (String × ScafalraItem) := st

/-- `Store.init` (src/unnamed/part_001 lines 29 to 37): when the store file
is missing, `save` persists the (empty) content at once; otherwise the file
is parsed and the content `Map` rebuilt from the pair list. The second
component records every file write performed. -/
def storeInit (file : Option (List (String × ScafalraItem))) :
    MapStore × List (List (String × ScafalraItem)) :=
  match file with
  | none => ([], [storeSave []])
  | some raw => (fromPairs raw, [])

theorem hasKV_iff_mem_keys {α : Type} (l : List (String × α)) (k : String) :
    hasKV l k = true ↔ k ∈ keysOf l := by
  induction l with
  | nil => simp [hasKV, getKV, keysOf]
  | cons hd t ih =>
    by_cases hk : hd.1 = k
    · simp [hasKV, getKV, hk, keysOf]
    · simp only [hasKV, getKV, hk, if_false, keysOf, List.map_cons, List.mem_cons]
      simp only [hasKV, keysOf] at ih
      rw [ih]
      constructor
      · exact Or.inr
      · rintro (h | h)
        · exact absurd h.symm hk
        · exact h

theorem foldl_setKV_of_disjoint {α : Type} (l : List (String × α)) :
    ∀ acc : List (String × α),
    (∀ k, hasKV acc k = true → k ∉ keysOf l) → (keysOf l).Nodup →
    l.foldl (fun m p => setKV m p.1 p.2) acc = acc ++ l := by
  induction l with
  | nil => intro acc _ _; simp
  | cons p t ih =>
    intro acc hdisj hnd
    have hfresh : hasKV acc p.1 = false := by
      by_contra h
      have h' : hasKV acc p.1 = true := by simpa using h
      exact hdisj p.1 h' (by simp [keysOf])
    rw [List.foldl_cons, setKV_fresh _ _ _ hfresh]
    have hnd' : (keysOf t).Nodup := by
      simpa [keysOf] using hnd.of_cons
    have hp : p.1 ∉ keysOf t := by
      simp only [keysOf, List.map_cons] at hnd
      exact hnd.not_mem
    rw [ih (acc ++ [(p.1, p.2)]) ?_ hnd']
    · simp
    · intro k hk
      rw [hasKV_append] at hk
      rcases Bool.or_eq_true_iff.mp hk with h | h
      · intro hmem
        exact hdisj k h
          (by simp only [keysOf, List.map_cons, List.mem_cons]; exact Or.inr hmem)
      · have : k = p.1 := by
          simp [hasKV, getKV] at h
          by_cases he : p.1 = k
          · exact he.symm
          · simp [he] at h
        rw [this]
        exact hp

/-- Rebuilding the `Map` from a serialized pair list with distinct keys is
the identity. -/
theorem fromPairs_eq_self {α : Type} (l : List (String × α))
    (h : (keysOf l).Nodup) : fromPairs l = l := by
  have := foldl_setKV_of_disjoint l [] (by intro k hk; simp [hasKV, getKV] at hk) h
  simpa [fromPairs] using this

/-- Claim C7: `save` followed by `init` of a fresh store restores the exact
ordered entry list, and `init` of a missing store file yields the empty
store and persists it immediately. -/
theorem C7_store_save_load_roundtrip (st : MapStore)
    (h : (keysOf st).Nodup) :
    storeInit (some (storeSave st)) = (st, []) ∧
    storeInit none = ([], [storeSave []]) := by
  refine ⟨?_, rfl⟩
  simp only [storeInit, storeSave]
  rw [fromPairs_eq_self st h]

/-- Concrete instantiation of claim C7. -/
theorem C7_store_save_load_roundtrip_witness :
    storeInit (some (storeSave [("a", ⟨"i", "u", "s", "/l"⟩),
        ("b", ⟨"i2", "u2", "s2", "/l2"⟩)]))
      = ([("a", ⟨"i", "u", "s", "/l"⟩), ("b", ⟨"i2", "u2", "s2", "/l2"⟩)], []) ∧
    storeInit none = ([], [storeSave []]) :=
  C7_store_save_load_roundtrip
    [("a", ⟨"i", "u", "s", "/l"⟩), ("b", ⟨"i2", "u2", "s2", "/l2"⟩)] (by decide)

theorem getKV_eq_none_iff {α : Type} (l : List (String × α)) (k : String) :
    getKV l k = none ↔ hasKV l k = false := by
  unfold hasKV
  cases getKV l k <;> simp

theorem getKV_eraseKV_self {α : Type} (l : List (String × α)) (k : String)
    (h : (keysOf l).Nodup) : getKV (eraseKV l k) k = none := by
  induction l with
  | nil => simp [eraseKV, getKV]
  | cons hd t ih =>
    simp only [keysOf, List.map_cons, List.nodup_cons] at h
    by_cases hk : hd.1 = k
    · simp only [eraseKV, hk, if_true]
      rw [getKV_eq_none_iff]
      rw [← hk]
      by_contra hc
      have : hasKV t hd.1 = true := by simpa using hc
      exact h.1 ((hasKV_iff_mem_keys t hd.1).mp this)
    · simp only [eraseKV, hk, if_false, getKV]
      exact ih h.2

/-- The error taxonomy of src/src/error.ts: `ScafalraError.itemNotExists`
carries the message `Not found: <name>.` (the source wraps the name in
single quotes, elided here). -/
def itemNotExistsMsg (name : String) : String := "Not found: " ++ name ++ "."

/-- Message of `ScafalraError.itemExists`. -/
def itemExistsMsg (name : String) : String := name ++ " already exists."

/-- A recursive filesystem deletion request, recorded as an effect. -/
inductive FsEff where
  | rmrfEff (p : String)
deriving DecidableEq, Repr

/-- `fsp.rm(target, options)` on a target that may or may not exist: with
`force` unset a missing target raises ENOENT, with `force` set the call
always succeeds (src/unnamed/part_001 utils: `rmrf` passes
`force: true, recursive: true`). -/
def fsRm (force : Bool) (targetExists : Bool) : Except String Unit :=
  if !targetExists && !force then .error "ENOENT" else .ok ()

/-- `rmrf` as used by the store: always `force`. -/
def rmrfCall (targetExists : Bool) : Except String Unit := fsRm true targetExists

/-- `Store.remove` (src/unnamed/part_001 lines 49 to 61): a missing name is
reported through the change log with the `itemNotExists` message and the
content is untouched; a present name has its cache directory deleted with
`rmrf` and its record removed. -/
def storeRemove (st : MapStore) (name : String) :
    MapStore × Option String × List FsEff :=
  match getKV st name with
  | none => (st, some (itemNotExistsMsg name), [])
  | some item => (eraseKV st name, none, [FsEff.rmrfEff item.localPath])

/-- Claim C8: removing an absent name surfaces the not-found error and leaves
the store unchanged; removing a present name deletes its cache directory
best-effort (the forced `rm` succeeds whether or not the directory still
exists) and removes the record. -/
theorem C8_remove_missing_and_present (st : MapStore) (missing present : String)
    (item : ScafalraItem)
    (hmiss : hasKV st missing = false)
    (hpres : getKV st present = some item)
    (hnd : (keysOf st).Nodup) :
    storeRemove st missing = (st, some (itemNotExistsMsg missing), []) ∧
    storeRemove st present
      = (eraseKV st present, none, [FsEff.rmrfEff item.localPath]) ∧
    getKV (eraseKV st present) present = none ∧
    (∀ b : Bool, rmrfCall b = .ok ()) := by
  refine ⟨?_, ?_, ?_, ?_⟩
  · have : getKV st missing = none := (getKV_eq_none_iff st missing).mpr hmiss
    simp [storeRemove, this]
  · simp [storeRemove, hpres]
  · exact getKV_eraseKV_self st present hnd
  · intro b; cases b <;> rfl

/-- Concrete instantiation of claim C8. -/
theorem C8_remove_missing_and_present_witness :
    storeRemove [("a", ⟨"i", "u", "s", "/cache/a"⟩)] "b"
      = ([("a", ⟨"i", "u", "s", "/cache/a"⟩)], some (itemNotExistsMsg "b"), []) ∧
    storeRemove [("a", ⟨"i", "u", "s", "/cache/a"⟩)] "a"
      = (eraseKV [("a", ⟨"i", "u", "s", "/cache/a"⟩)] "a", none,
          [FsEff.rmrfEff "/cache/a"]) ∧
    getKV (eraseKV [("a", (⟨"i", "u", "s", "/cache/a"⟩ : ScafalraItem))] "a") "a"
      = none ∧
    (∀ b : Bool, rmrfCall b = .ok ()) :=
  C8_remove_missing_and_present [("a", ⟨"i", "u", "s", "/cache/a"⟩)] "b" "a"
    ⟨"i", "u", "s", "/cache/a"⟩ (by decide) (by decide) (by decide)

/-! ## `Store.rename` and `Scafalra.mv` -/

inductive ScafErr where
  | itemNotExists (name : String)
  | itemExists (name : String)
deriving DecidableEq, Repr

/-- `Store.rename` (src/unnamed/part_001 lines 68 to 78): not-found error if
the old name is absent, conflict error if the new name is taken, otherwise a
pure key rename (set the new key, delete the old one). -/
def storeRename (st : MapStore) (name newName : String) :
    Except ScafErr MapStore :=
  match getKV st name with
  | none => .error (.itemNotExists name)
  | some item =>
    if hasKV st newName then .error (.itemExists newName)
    else .ok (eraseKV (setKV st newName item) name)

/-- `Scafalra.mv` (src/src/scafalra.ts lines 125 to 131): an early return
when the two names coincide, otherwise `rename` followed by `save`. The
boolean records whether `save` ran. -/
def scafalraMv (st : MapStore) (name newName : String) :
    Except ScafErr (MapStore × Bool) :=
  if name = newName then .ok (st, false)
  else
    match storeRename st name newName with
    | .error e => .error e
    | .ok st2 => .ok (st2, true)

/-- Claim C10: renaming an entry to its own current name is a silent identity
operation for every store state and name: no error is raised (even when the
name is absent or, being present, would collide with itself), the in-memory
map is unchanged, and no save is performed. -/
theorem C10_mv_self_is_silent_identity (st : MapStore) (n : String) :
    scafalraMv st n n = .ok (st, false) := by
  simp [scafalraMv]

/-! ## Depth-1 fan-out of `Scafalra.add` (src/src/scafalra.ts lines 36 to 74)

After the fetch pipeline has produced one local directory `finalPath`, depth 1
lists its immediate children and registers every non-hidden, non-dependency
child directory as its own store entry, all sharing the resolved commit `sha`,
canonical `url` and original `input` of the root. -/

structure Dirent where
  name : String
  isDir : Bool
deriving DecidableEq, Repr

/-- `path.join(a, b)` for a simple relative segment. -/
def pathJoin (a b : String) : String := a ++ "/" ++ b

/-- The depth-1 registration filter of `Scafalra.add`:
`dirent.isDirectory() && dirent.name[0] !== . && dirent.name !== node_modules`. -/
def direntPass (d : Dirent) : Bool :=
  d.isDir && !(d.name.data.head? == some '.') && !(d.name == "node_modules")

/-- The depth-1 loop of `Scafalra.add` (lines 53 to 67): for each passing
child, `store.add(dirent.name, { ...scafalraItem, local: join(finalPath, dirent.name) })`. -/
def scafalraAddDepth1 (st : MapStore) (input url sha finalPath : String)
    (dirents : List Dirent) : MapStore :=
  dirents.foldl
    (fun s d =>
      if direntPass d then
        setKV s d.name ⟨input, url, sha, pathJoin finalPath d.name⟩
      else s)
    st

theorem scafalraAddDepth1_append (input url sha finalPath : String)
    (dirents : List Dirent) :
    ∀ st : MapStore,
    (∀ d ∈ dirents, direntPass d = true → hasKV st d.name = false) →
    (dirents.map (·.name)).Nodup →
    scafalraAddDepth1 st input url sha finalPath dirents
      = st ++ (dirents.filter direntPass).map
          (fun d => (d.name, (⟨input, url, sha, pathJoin finalPath d.name⟩ : ScafalraItem))) := by
  induction dirents with
  | nil => intro st _ _; simp [scafalraAddDepth1]
  | cons d t ih =>
    intro st hdisj hnd
    have hnd' : (t.map (·.name)).Nodup := by
      simpa using hnd.of_cons
    have hdmem : d.name ∉ t.map (·.name) := by
      simpa using hnd.not_mem
    by_cases hp : direntPass d = true
    · have hfresh : hasKV st d.name = false := hdisj d (by simp) hp
      simp only [scafalraAddDepth1, List.foldl_cons, hp, if_true]
      have step := ih (setKV st d.name ⟨input, url, sha, pathJoin finalPath d.name⟩)
        ?_ hnd'
      · simp only [scafalraAddDepth1] at step
        rw [step, setKV_fresh _ _ _ hfresh, List.filter_cons_of_pos hp]
        simp
      · intro d' hd' hp'
        have hne : d.name ≠ d'.name := by
          intro he
          exact hdmem (by rw [he]; exact List.mem_map_of_mem (·.name) hd')
        rw [hasKV_setKV_ne _ _ _ _ hne]
        exact hdisj d' (by simp [hd']) hp'
    · have hp' : direntPass d = false := by simpa using hp
      have hfilter : List.filter direntPass (d :: t) = List.filter direntPass t := by
        simp [List.filter_cons, hp']
      simp only [scafalraAddDepth1, List.foldl_cons, hp', Bool.false_eq_true,
        if_false, hfilter]
      exact ih st (fun d' hd' h => hdisj d' (by simp [hd']) h) hnd'

theorem scafalraAddDepth1_never_registers_filtered (input url sha finalPath : String)
    (dirents : List Dirent) (nm : String)
    (hfail : nm.data.head? = some '.' ∨ nm = "node_modules") :
    ∀ st : MapStore, hasKV st nm = false →
    hasKV (scafalraAddDepth1 st input url sha finalPath dirents) nm = false := by
  induction dirents with
  | nil => intro st h; simpa [scafalraAddDepth1] using h
  | cons d t ih =>
    intro st h
    by_cases hp : direntPass d = true
    · have hne : d.name ≠ nm := by
        intro he
        simp only [direntPass, Bool.and_eq_true, Bool.not_eq_true', beq_eq_false_iff_ne,
          ne_eq] at hp
        rcases hfail with hdot | hmod
        · rw [he] at hp
          rcases hp with ⟨⟨_, hp2⟩, _⟩
          rw [hdot] at hp2
          simp at hp2
        · exact (by rw [he] at hp; exact hp.2 hmod)
      simp only [scafalraAddDepth1, List.foldl_cons, hp, if_true]
      exact ih (setKV st d.name ⟨input, url, sha, pathJoin finalPath d.name⟩)
        (by rw [hasKV_setKV_ne _ _ _ _ hne]; exact h)
    · have hp' : direntPass d = false := by simpa using hp
      simp only [scafalraAddDepth1, List.foldl_cons, hp', if_false]
      exact ih st h

/-- Claim C5: a depth-1 add over a fetched root whose children are the
directories a, b, c, the hidden directory .x and the dependency directory
node_modules creates exactly the three entries a, b, c, each sharing the
resolved commit, canonical url and source input of the root; and hidden or
dependency-marker names are never registered by the depth-1 loop. -/
theorem C5_depth1_fanout (input url sha finalPath : String) :
    scafalraAddDepth1 [] input url sha finalPath
      [⟨"a", true⟩, ⟨"b", true⟩, ⟨"c", true⟩, ⟨".x", true⟩, ⟨"node_modules", true⟩]
      = [("a", ⟨input, url, sha, pathJoin finalPath "a"⟩),
         ("b", ⟨input, url, sha, pathJoin finalPath "b"⟩),
         ("c", ⟨input, url, sha, pathJoin finalPath "c"⟩)] ∧
    (∀ (dirents : List Dirent) (nm : String),
      nm.data.head? = some '.' ∨ nm = "node_modules" →
      hasKV (scafalraAddDepth1 [] input url sha finalPath dirents) nm = false) := by
  constructor
  · have := scafalraAddDepth1_append input url sha finalPath
      [⟨"a", true⟩, ⟨"b", true⟩, ⟨"c", true⟩, ⟨".x", true⟩, ⟨"node_modules", true⟩]
      [] (by intro d _ _; rfl) (by decide)
    rw [this]
    rfl
  · intro dirents nm hf
    exact scafalraAddDepth1_never_registers_filtered input url sha finalPath
      dirents nm hf [] rfl

/-- Concrete instantiation of claim C5. -/
theorem C5_depth1_fanout_witness :
    scafalraAddDepth1 [] "o/r" "https://x" "sha1" "/cache/r"
      [⟨"a", true⟩, ⟨"b", true⟩, ⟨"c", true⟩, ⟨".x", true⟩, ⟨"node_modules", true⟩]
      = [("a", ⟨"o/r", "https://x", "sha1", pathJoin "/cache/r" "a"⟩),
         ("b", ⟨"o/r", "https://x", "sha1", pathJoin "/cache/r" "b"⟩),
         ("c", ⟨"o/r", "https://x", "sha1", pathJoin "/cache/r" "c"⟩)] ∧
    hasKV (scafalraAddDepth1 [] "o/r" "https://x" "sha1" "/cache/r"
      [⟨"a", true⟩, ⟨"b", true⟩, ⟨"c", true⟩, ⟨".x", true⟩, ⟨"node_modules", true⟩])
      ".x" = false :=
  ⟨(C5_depth1_fanout "o/r" "https://x" "sha1" "/cache/r").1,
   (C5_depth1_fanout "o/r" "https://x" "sha1" "/cache/r").2
     [⟨"a", true⟩, ⟨"b", true⟩, ⟨"c", true⟩, ⟨".x", true⟩, ⟨"node_modules", true⟩]
     ".x" (Or.inl (by decide))⟩

/-! ## `ScaffoldCli.create` (src/src/cli.ts lines 216 to 295), non-URL input

The embedding covers the branch where `src` is not URL-like: `src` is looked
up in the store; a stored remote-backed entry is re-resolved and, when the
fresh commit differs from the stored one, refetched (`cacheRepo`) with the
entry rewritten in place (`addProject` with `replace: true`) and saved,
before the copy; an unknown `src` is treated as an ad-hoc local directory.
The common tail resolves the target, refuses a self copy, optionally
deletes the target (`overwrite`) and recursively copies.

External effects are explicit: the fresh resolution (`parse(proj.remote)`
with its `.catch` returning null) enters as an `Option String` carrying the
freshly resolved commit hash, and filesystem state enters as a function from
paths to nodes. `path.resolve` is embedded without `..`-normalization, which
none of the claims exercise. -/

inductive FsNode where
  | missing
  | file
  | dir
deriving DecidableEq, Repr

/-- Effect events of a `create` run, in execution order. -/
inductive CEv where
  | fetchEv
  | saveEv
  | rmEv (p : String)
  | cpEv (source target : String)
deriving DecidableEq, Repr

/-- Outcomes of a `create` run, mirroring the log.error and log.info exits
(quote characters of the source messages elided). -/
inductive COut where
  | created (target : String)
  | errNotDirectory (p : String)
  | errCantFindDir (p : String)
  | errUnknownSource
  | errSamePath
  | errAlreadyExists (p : String)
  | fatal
deriving DecidableEq, Repr

def isAbsolutePath (p : String) : Bool := p.data.head? == some '/'

/-- `path.resolve(cwd, p)` restricted to already-normalized inputs. -/
def resolvePath (cwd p : String) : String :=
  if isAbsolutePath p then p else pathJoin cwd p

/-- The copy tail of `create` (src/src/cli.ts lines 276 to 294): self-copy
refusal, optional forced delete of the target, then the recursive `cp`,
whose first steps read the source directory (ENOENT when missing, a
non-directory source is rethrown as fatal) and create the target directory
(EEXIST when the target still exists). -/
def createCopyTail (fs : String → FsNode) (source target : String)
    (overwrite : Bool) : COut × List CEv :=
  if target = source then (.errSamePath, [])
  else
    let evs := if overwrite then [CEv.rmEv target] else []
    let fsNow : String → FsNode :=
      fun p => if overwrite && p = target then FsNode.missing else fs p
    match fsNow source with
    | .missing => (.errCantFindDir source, evs)
    | .file => (.fatal, evs)
    | .dir =>
      match fsNow target with
      | .missing => (.created target, evs ++ [CEv.cpEv source target])
      | _ => (.errAlreadyExists target, evs)

/-- The staleness refresh inside `create` (src/src/cli.ts lines 252 to 270):
when the entry is remote-backed, the remote was re-resolved successfully and
the fresh commit differs from the stored one, `cacheRepo` refetches and the
entry is rewritten in place (`addProject` with `replace: true`, keeping the
cache path) and the store saved. -/
def createRefresh (st : StoreObj) (ks : KeyCounters) (src : String)
    (proj : Project) (resolvedHash : Option String) : StoreObj × List CEv :=
  match proj.remote with
  | none => (st, [])
  | some _ =>
    match resolvedHash with
    | none => (st, [])
    | some h =>
      if some h ≠ proj.hash then
        ((addProject st ks src
            { path := proj.path, remote := proj.remote, hash := some h }
            true).1,
         [CEv.fetchEv, CEv.saveEv])
      else (st, [])

theorem createRefresh_events (st : StoreObj) (ks : KeyCounters) (src : String)
    (proj : Project) (rh : Option String) :
    (createRefresh st ks src proj rh).2 = [] ∨
    (createRefresh st ks src proj rh).2 = [CEv.fetchEv, CEv.saveEv] := by
  cases hrm : proj.remote with
  | none => exact Or.inl (by simp [createRefresh, hrm])
  | some r =>
    cases rh with
    | none => exact Or.inl (by simp [createRefresh, hrm])
    | some h =>
      by_cases hs : some h = proj.hash
      · exact Or.inl (by simp [createRefresh, hrm, hs])
      · exact Or.inr (by simp [createRefresh, hrm, hs])

/-- `ScaffoldCli.create` for a non-URL `src` (src/src/cli.ts lines 237 to
295). `resolvedHash` is the result of `parse(proj.remote).catch(() => null)`
for the stored remote-backed branch. -/
def cliCreate (fs : String → FsNode) (cwd : String) (st : StoreObj)
    (ks : KeyCounters) (src : String) (directory : Option String)
    (overwrite : Bool) (resolvedHash : Option String) :
    StoreObj × COut × List CEv :=
  match getKV st src with
  | none =>
    let absPath := resolvePath cwd src
    match fs absPath with
    | .missing => (st, .errCantFindDir absPath, [])
    | .file => (st, .errNotDirectory absPath, [])
    | .dir =>
      let tail := createCopyTail fs absPath
        (resolvePath cwd (directory.getD src)) overwrite
      (st, tail.1, tail.2)
  | some proj =>
    let refreshed := createRefresh st ks src proj resolvedHash
    if proj.path = "" then (refreshed.1, .errUnknownSource, refreshed.2)
    else
      let tail := createCopyTail fs proj.path
        (resolvePath cwd (directory.getD src)) overwrite
      (refreshed.1, tail.1, refreshed.2 ++ tail.2)

/-- Claim C1: `create` on a stored remote-backed entry whose freshly resolved
commit differs from the stored one performs exactly one refetch and rewrites
the stored commit in place (same key, same cache path) before the copy; when
the resolved commit matches, no network fetch happens and the existing cache
directory is copied with the store untouched. -/
theorem C1_create_staleness_refresh (fs : String → FsNode) (cwd : String)
    (st : StoreObj) (ks : KeyCounters) (src : String) (directory : Option String)
    (proj : Project) (h newh : String)
    (hproj : getKV st src = some proj)
    (hrem : proj.remote.isSome = true)
    (hpath : proj.path ≠ "")
    (hsrcdir : fs proj.path = FsNode.dir)
    (htarget : resolvePath cwd (directory.getD src) ≠ proj.path)
    (htmiss : fs (resolvePath cwd (directory.getD src)) = FsNode.missing)
    (hstale : some newh ≠ proj.hash)
    (hfresh : some h = proj.hash) :
    cliCreate fs cwd st ks src directory false (some newh)
      = (setKV st src { path := proj.path, remote := proj.remote, hash := some newh },
         .created (resolvePath cwd (directory.getD src)),
         [CEv.fetchEv, CEv.saveEv,
          CEv.cpEv proj.path (resolvePath cwd (directory.getD src))]) ∧
    cliCreate fs cwd st ks src directory false (some h)
      = (st, .created (resolvePath cwd (directory.getD src)),
         [CEv.cpEv proj.path (resolvePath cwd (directory.getD src))]) := by
  obtain ⟨r, hr⟩ := Option.isSome_iff_exists.mp hrem
  have hrefresh1 : createRefresh st ks src proj (some newh)
      = (setKV st src { path := proj.path, remote := proj.remote, hash := some newh },
         [CEv.fetchEv, CEv.saveEv]) := by
    simp only [createRefresh, hr]
    rw [if_pos hstale]
    simp [addProject, hr]
  have hrefresh2 : createRefresh st ks src proj (some h) = (st, []) := by
    simp only [createRefresh, hr]
    rw [if_neg (fun hn => hn hfresh)]
  constructor
  · simp only [cliCreate, hproj, hrefresh1]
    rw [if_neg hpath]
    simp only [createCopyTail]
    rw [if_neg htarget]
    simp [hsrcdir, htmiss]
  · simp only [cliCreate, hproj, hrefresh2]
    rw [if_neg hpath]
    simp only [createCopyTail]
    rw [if_neg htarget]
    simp [hsrcdir, htmiss]

/-- Concrete instantiation of claim C1. -/
theorem C1_create_staleness_refresh_witness :
    (cliCreate
        (fun p => if p = "/cache/tpl" then FsNode.dir else FsNode.missing)
        "/w" [("tpl", ⟨"/cache/tpl", some "https://g/r.git", some "aaa"⟩)] []
        "tpl" none false (some "bbb")
      = (setKV [("tpl", ⟨"/cache/tpl", some "https://g/r.git", some "aaa"⟩)] "tpl"
          { path := "/cache/tpl", remote := some "https://g/r.git", hash := some "bbb" },
         .created (resolvePath "/w" ((none : Option String).getD "tpl")),
         [CEv.fetchEv, CEv.saveEv,
          CEv.cpEv "/cache/tpl" (resolvePath "/w" ((none : Option String).getD "tpl"))])) ∧
    (cliCreate
        (fun p => if p = "/cache/tpl" then FsNode.dir else FsNode.missing)
        "/w" [("tpl", ⟨"/cache/tpl", some "https://g/r.git", some "aaa"⟩)] []
        "tpl" none false (some "aaa")
      = ([("tpl", ⟨"/cache/tpl", some "https://g/r.git", some "aaa"⟩)],
         .created (resolvePath "/w" ((none : Option String).getD "tpl")),
         [CEv.cpEv "/cache/tpl" (resolvePath "/w" ((none : Option String).getD "tpl"))])) :=
  C1_create_staleness_refresh
    (fun p => if p = "/cache/tpl" then FsNode.dir else FsNode.missing)
    "/w" [("tpl", ⟨"/cache/tpl", some "https://g/r.git", some "aaa"⟩)] []
    "tpl" none ⟨"/cache/tpl", some "https://g/r.git", some "aaa"⟩ "aaa" "bbb"
    (by decide) (by decide) (by decide) (by decide) (by decide) (by decide)
    (by decide) (by decide)

/-- Claim C9: the copy step of `create` refuses a self copy with the
same-path conflict error raised before the `overwrite` delete and before the
copy, so neither happens even with `overwrite` set; and when the target
already exists while `overwrite` is false the recursive copy aborts with the
already-exists (EEXIST) error. Both the stored-entry branch and the ad-hoc
local-directory branch are covered. -/
theorem C9_create_copy_refusals (fs : String → FsNode) (cwd : String)
    (st : StoreObj) (ks : KeyCounters) (src : String) (directory : Option String)
    (rh : Option String) :
    (∀ (proj : Project) (ow : Bool), getKV st src = some proj → proj.path ≠ "" →
      resolvePath cwd (directory.getD src) = proj.path →
      (cliCreate fs cwd st ks src directory ow rh).2.1 = COut.errSamePath ∧
      (∀ p, CEv.rmEv p ∉ (cliCreate fs cwd st ks src directory ow rh).2.2) ∧
      (∀ a b, CEv.cpEv a b ∉ (cliCreate fs cwd st ks src directory ow rh).2.2)) ∧
    (∀ ow : Bool, getKV st src = none →
      fs (resolvePath cwd src) = FsNode.dir →
      resolvePath cwd (directory.getD src) = resolvePath cwd src →
      cliCreate fs cwd st ks src directory ow rh = (st, COut.errSamePath, [])) ∧
    (∀ proj : Project, getKV st src = some proj → proj.path ≠ "" →
      resolvePath cwd (directory.getD src) ≠ proj.path →
      fs proj.path = FsNode.dir →
      fs (resolvePath cwd (directory.getD src)) ≠ FsNode.missing →
      (cliCreate fs cwd st ks src directory false rh).2.1
        = COut.errAlreadyExists (resolvePath cwd (directory.getD src))) := by
  refine ⟨?_, ?_, ?_⟩
  · intro proj ow hproj hpath htgt
    have hred : cliCreate fs cwd st ks src directory ow rh
        = ((createRefresh st ks src proj rh).1, COut.errSamePath,
           (createRefresh st ks src proj rh).2 ++ []) := by
      simp only [cliCreate, hproj]
      rw [if_neg hpath]
      simp only [createCopyTail]
      rw [if_pos htgt]
    rw [hred]
    rcases createRefresh_events st ks src proj rh with he | he <;> simp [he]
  · intro ow hnone hdir htgt
    simp only [cliCreate, hnone, hdir]
    simp only [createCopyTail]
    rw [if_pos htgt]
  · intro proj hproj hpath htgt hsdir htex
    simp only [cliCreate, hproj]
    rw [if_neg hpath]
    simp only [createCopyTail]
    rw [if_neg htgt]
    cases htn : fs (resolvePath cwd (directory.getD src)) with
    | missing => exact absurd htn htex
    | file => simp [hsdir, htn]
    | dir => simp [hsdir, htn]

/-- Concrete instantiation of claim C9. -/
theorem C9_create_copy_refusals_witness :
    ((cliCreate (fun p => if p = "/t" then FsNode.dir else FsNode.missing) "/w"
        [("tpl", ⟨"/t", none, none⟩)] [] "tpl" (some "/t") true none).2.1
      = COut.errSamePath) ∧
    ((cliCreate (fun p => if p = "/t" || p = "/w/x" then FsNode.dir else FsNode.missing)
        "/w" [("tpl", ⟨"/t", none, none⟩)] [] "tpl" (some "x") false none).2.1
      = COut.errAlreadyExists (resolvePath "/w" ((some "x").getD "tpl"))) :=
  ⟨((C9_create_copy_refusals
      (fun p => if p = "/t" then FsNode.dir else FsNode.missing) "/w"
      [("tpl", ⟨"/t", none, none⟩)] [] "tpl" (some "/t") none).1
      ⟨"/t", none, none⟩ true (by decide) (by decide) (by decide)).1,
   (C9_create_copy_refusals
      (fun p => if p = "/t" || p = "/w/x" then FsNode.dir else FsNode.missing) "/w"
      [("tpl", ⟨"/t", none, none⟩)] [] "tpl" (some "x") none).2.2
      ⟨"/t", none, none⟩ (by decide) (by decide) (by decide) (by decide) (by decide)⟩

/-! ## Batch `add` (src/src/cli.ts lines 141 to 203)

`add` partitions the inputs into URL-like remote references and local paths,
dispatches every unit through `Promise.allSettled` (each unit is caught
independently; the runtime is single-threaded cooperative, so the per-unit
store mutations are embedded as a sequential fold in dispatch order), saves,
and reports the settled outcomes. -/

/-- Helper for `basename`: walk the characters keeping the current segment
and the last nonempty segment seen before a slash. -/
def basenameAux : List Char → List Char → List Char → List Char
  | [], cur, lastNE => if cur ≠ [] then cur else lastNE
  | c :: cs, cur, lastNE =>
    if c = '/' then basenameAux cs [] (if cur ≠ [] then cur else lastNE)
    else basenameAux cs (cur ++ [c]) lastNE

/-- `path.basename`: the last nonempty path segment (trailing slashes
ignored). -/
def basename (p : String) : String := String.mk (basenameAux p.data [] [])

/-- Rejection message of `fsp.stat` on a missing path. -/
def statEnoentMsg (p : String) : String :=
  "ENOENT: no such file or directory, stat " ++ p

/-- Rejection message of `fsp.readdir` on a missing path. -/
def scandirEnoentMsg (p : String) : String :=
  "ENOENT: no such file or directory, scandir " ++ p

/-- Error thrown when the depth-0 target is not a directory. -/
def notDirMsg (p : String) : String := p ++ " is not a directory."

/-- `ScaffoldCli.addLocal` (src/src/cli.ts lines 141 to 156): resolve the
path; at depth 0, stat it (`ENOENT` rejection when missing, explicit error
when not a directory) and register it under its basename; at depth 1, list
it and register every non-hidden child directory. -/
def addLocal (fs : String → FsNode) (lsDir : String → List Dirent)
    (cwd : String) (st : StoreObj) (ks : KeyCounters) (src : String)
    (depth : Nat) : Except String (StoreObj × KeyCounters) :=
  let absPath := resolvePath cwd src
  if depth = 0 then
    match fs absPath with
    | .missing => .error (statEnoentMsg absPath)
    | .file => .error (notDirMsg absPath)
    | .dir =>
      let r := addProject st ks (basename absPath) { path := absPath } false
      .ok (r.1, r.2.1)
  else if depth = 1 then
    match fs absPath with
    | .missing => .error (scandirEnoentMsg absPath)
    | _ =>
      let r := (lsDir absPath).foldl
        (fun (acc : StoreObj × KeyCounters) d =>
          if d.isDir && !(d.name.data.head? == some '.') then
            let r2 := addProject acc.1 acc.2 d.name
              { path := pathJoin absPath d.name } false
            (r2.1, r2.2.1)
          else acc)
        (st, ks)
      .ok r
  else .ok (st, ks)

/-- The aggregate report type, `Result` of src/src/utils.ts. -/
structure Result where
  success : Nat
  failed : List String
deriving DecidableEq, Repr

/-- Modelled from the spec: the reduction of the settled per-unit outcomes
into the report consumed by `log.result` (the utils revision that pairs
src/src/cli.ts, whose `log.result` takes the settled array, is not among the
sources): the report carries the success count and the list of failure
messages. -/
def aggregateSettled (rs : List (Except String Unit)) : Result :=
  { success := (rs.filter (fun r => match r with
      | .ok _ => true
      | .error _ => false)).length,
    failed := rs.filterMap (fun r => match r with
      | .ok _ => none
      | .error e => some e) }

/-- `ScaffoldCli.add` (src/src/cli.ts lines 177 to 203) for local units.
`isURL` is the syntactic partition predicate of utils and `addRemoteU` the
remote unit of work (resolve, fetch, register), both entering as parameters;
every unit settles independently and the outcomes are aggregated. -/
def cliAdd (isURL : String → Bool)
    (addRemoteU : StoreObj → KeyCounters → String →
      Except String (StoreObj × KeyCounters))
    (fs : String → FsNode) (lsDir : String → List Dirent) (cwd : String)
    (paths : List String) (depth : Nat) (st : StoreObj) (ks : KeyCounters) :
    StoreObj × KeyCounters × Result :=
  let locals := paths.filter (fun p => !(isURL p))
  let remotes := paths.filter (fun p => isURL p)
  let stepL := locals.foldl
    (fun (acc : StoreObj × KeyCounters × List (Except String Unit)) src =>
      match addLocal fs lsDir cwd acc.1 acc.2.1 src depth with
      | .ok p => (p.1, p.2, acc.2.2 ++ [Except.ok ()])
      | .error e => (acc.1, acc.2.1, acc.2.2 ++ [Except.error e]))
    (st, ks, ([] : List (Except String Unit)))
  let stepR := remotes.foldl
    (fun (acc : StoreObj × KeyCounters × List (Except String Unit)) src =>
      match addRemoteU acc.1 acc.2.1 src with
      | .ok p => (p.1, p.2, acc.2.2 ++ [Except.ok ()])
      | .error e => (acc.1, acc.2.1, acc.2.2 ++ [Except.error e]))
    stepL
  (stepR.1, stepR.2.1, aggregateSettled stepR.2.2)

/-- Claim C3: a batch add over three local sources of which the middle one
does not exist settles every unit independently: the report is success 2
with exactly one failure message, the store gains exactly the two successful
entries in dispatch order, and the failing unit does not prevent the later
unit from completing. -/
theorem C3_batch_add_contains_failures (isURL : String → Bool)
    (addRemoteU : StoreObj → KeyCounters → String →
      Except String (StoreObj × KeyCounters))
    (fs : String → FsNode) (lsDir : String → List Dirent) (cwd : String)
    (st : StoreObj) (ks : KeyCounters) (s1 s2 s3 : String)
    (hu1 : isURL s1 = false) (hu2 : isURL s2 = false) (hu3 : isURL s3 = false)
    (hd1 : fs (resolvePath cwd s1) = FsNode.dir)
    (hd2 : fs (resolvePath cwd s2) = FsNode.missing)
    (hd3 : fs (resolvePath cwd s3) = FsNode.dir)
    (hb1 : hasKV st (basename (resolvePath cwd s1)) = false)
    (hb3 : hasKV st (basename (resolvePath cwd s3)) = false)
    (hbne : basename (resolvePath cwd s1) ≠ basename (resolvePath cwd s3)) :
    cliAdd isURL addRemoteU fs lsDir cwd [s1, s2, s3] 0 st ks
      = (st ++ [(basename (resolvePath cwd s1), { path := resolvePath cwd s1 }),
                (basename (resolvePath cwd s3), { path := resolvePath cwd s3 })],
         ks,
         { success := 2, failed := [statEnoentMsg (resolvePath cwd s2)] }) := by
  have ha1 : addLocal fs lsDir cwd st ks s1 0
      = .ok (st ++ [(basename (resolvePath cwd s1),
          { path := resolvePath cwd s1 })], ks) := by
    simp [addLocal, hd1, addProject, hb1, setKV_fresh _ _ _ hb1]
  have ha2 : addLocal fs lsDir cwd
      (st ++ [(basename (resolvePath cwd s1), { path := resolvePath cwd s1 })])
      ks s2 0
      = .error (statEnoentMsg (resolvePath cwd s2)) := by
    simp [addLocal, hd2]
  have hb3' : hasKV (st ++ [(basename (resolvePath cwd s1),
      ({ path := resolvePath cwd s1 } : Project))])
      (basename (resolvePath cwd s3)) = false := by
    rw [hasKV_append, hb3]
    simp [hasKV, getKV, hbne]
  have ha3 : addLocal fs lsDir cwd
      (st ++ [(basename (resolvePath cwd s1), { path := resolvePath cwd s1 })])
      ks s3 0
      = .ok (st ++ [(basename (resolvePath cwd s1),
            { path := resolvePath cwd s1 }),
          (basename (resolvePath cwd s3), { path := resolvePath cwd s3 })], ks) := by
    simp [addLocal, hd3, addProject, hb3', setKV_fresh _ _ _ hb3']
  have hfl : List.filter (fun p => !(isURL p)) [s1, s2, s3] = [s1, s2, s3] := by
    simp [hu1, hu2, hu3]
  have hfr : List.filter (fun p => isURL p) [s1, s2, s3] = [] := by
    simp [hu1, hu2, hu3]
  simp only [cliAdd, hfl, hfr, List.foldl_cons, List.foldl_nil, ha1]
  simp only [ha2]
  simp only [ha3]
  simp [aggregateSettled]

/-- Concrete instantiation of claim C3. -/
theorem C3_batch_add_contains_failures_witness :
    cliAdd (fun _ => false) (fun s _ _ => .ok (s, []))
      (fun p => if p = "/w/a" || p = "/w/c" then FsNode.dir else FsNode.missing)
      (fun _ => []) "/w" ["a", "b", "c"] 0 [] []
      = ([(basename (resolvePath "/w" "a"), { path := resolvePath "/w" "a" }),
          (basename (resolvePath "/w" "c"), { path := resolvePath "/w" "c" })],
         [],
         { success := 2, failed := [statEnoentMsg (resolvePath "/w" "b")] }) := by
  have h := C3_batch_add_contains_failures (fun _ => false)
    (fun s _ _ => .ok (s, []))
    (fun p => if p = "/w/a" || p = "/w/c" then FsNode.dir else FsNode.missing)
    (fun _ => []) "/w" [] [] "a" "b" "c" rfl rfl rfl (by decide) (by decide)
    (by decide) (by decide) (by decide) (by decide)
  simpa using h

/-! ## The fetch pipeline of `Repository` (src/unnamed/part_002 lines 43 to 97)

`download(parentDir, zipballUrl, dirName)` runs three steps in sequence:
`dowloadZipball` writes the archive to a random-suffixed zip file under
`parentDir`; `unzip` extracts it into a temp directory derived from the
archive name, closes the zip and removes the archive file; `move` reads the
single extracted top-level directory, descends into the optional subdir
(`ScafalraError` when that path does not exist), copies it to the final
location and removes the temp directory. There is no try/finally around any
step. The embedding tracks whether the two temporary artifacts exist, with
the outcome of the external calls (HTTP status, subdir existence, copy
outcome) entering as parameters. -/

/-- Whether the temporary archive file and the temporary extraction
directory exist at a given moment of a pipeline run. -/
structure TempState where
  zipExists : Bool
  tempDirExists : Bool
deriving DecidableEq, Repr

inductive PipeErr where
  | httpErr (status : Nat)
  | noSuchDir (p : String)
  | copyErr (p : String)
deriving DecidableEq, Repr

/-- `dowloadZipball` (lines 43 to 63): on a 2xx response the zip file is
written; any other status rejects before a file is created. -/
def dowloadZipball (httpOk : Bool) (status : Nat) (st : TempState) :
    Except PipeErr Unit × TempState :=
  if httpOk then (.ok (), { st with zipExists := true })
  else (.error (.httpErr status), st)

/-- `unzip` (lines 65 to 73): extract into the temp directory, close, then
remove the archive file. -/
def repoUnzip (st : TempState) : TempState :=
  { st with tempDirExists := true, zipExists := false }

/-- `move` (lines 75 to 87): when the source path (single extracted dir plus
optional subdir) is missing, a `ScafalraError` is thrown before any cleanup;
when the copy fails, the error propagates before any cleanup; only after a
successful copy is the temp directory removed. -/
def repoMove (sourcePath finalPath : String) (sourceExists cpOk : Bool)
    (st : TempState) : Except PipeErr String × TempState :=
  if !sourceExists then (.error (.noSuchDir sourcePath), st)
  else if !cpOk then (.error (.copyErr finalPath), st)
  else (.ok finalPath, { st with tempDirExists := false })

/-- The source path computed by `move`: temp dir, single extracted entry,
optional subdir. -/
def moveSourcePath (tempParentDir extracted : String)
    (subdir : Option String) : String :=
  match subdir with
  | none => pathJoin tempParentDir extracted
  | some s => pathJoin tempParentDir extracted ++ s

/-- `Repository.download` (lines 89 to 97): the three steps in sequence,
starting from a state with no temporary artifacts. -/
def repoDownload (httpOk : Bool) (status : Nat)
    (tempParentDir extracted : String) (subdir : Option String)
    (finalPath : String) (sourceExists cpOk : Bool) :
    Except PipeErr String × TempState :=
  let st0 : TempState := { zipExists := false, tempDirExists := false }
  match dowloadZipball httpOk status st0 with
  | (.error e, st1) => (.error e, st1)
  | (.ok _, st1) =>
    let st2 := repoUnzip st1
    repoMove (moveSourcePath tempParentDir extracted subdir) finalPath
      sourceExists cpOk st2

/-- Counterexample to claim C2: a pipeline run whose relocation step fails
because the requested subdir does not exist in the extracted tree ends in an
error state in which the temporary extraction directory still exists — the
cleanup is not unconditional. -/
theorem C2_counterexample_tempdir_survives_failed_move :
    (repoDownload true 200 "/cache/ab12" "repo-main" (some "/missing")
        "/cache/tpl" false true).1
      = .error (.noSuchDir (moveSourcePath "/cache/ab12" "repo-main"
          (some "/missing"))) ∧
    (repoDownload true 200 "/cache/ab12" "repo-main" (some "/missing")
        "/cache/tpl" false true).2.tempDirExists = true := by
  constructor <;> rfl

/-- Claim C2 as amended: the temporary archive file is gone on every exit
path of the relocation step (it is already removed by the unzip step), and
the temporary extraction directory is removed exactly when the relocation
step succeeds; on a failing relocation (missing subdir path or failing
copy) the extraction directory is left behind. -/
theorem C2_cleanup_on_success_only (status : Nat)
    (tempParentDir extracted : String) (subdir : Option String)
    (finalPath : String) (sourceExists cpOk : Bool) :
    (repoDownload true status tempParentDir extracted subdir finalPath
        sourceExists cpOk).2.zipExists = false ∧
    ((repoDownload true status tempParentDir extracted subdir finalPath
        sourceExists cpOk).1.isOk = true ↔
      (repoDownload true status tempParentDir extracted subdir finalPath
        sourceExists cpOk).2.tempDirExists = false) := by
  cases sourceExists with
  | false => simp [repoDownload, dowloadZipball, repoUnzip, repoMove, Except.isOk,
      Except.toBool]
  | true =>
    cases cpOk with
    | false => simp [repoDownload, dowloadZipball, repoUnzip, repoMove,
        Except.isOk, Except.toBool]
    | true => simp [repoDownload, dowloadZipball, repoUnzip, repoMove,
        Except.isOk, Except.toBool]

/-! ## The `Repository` reference grammar (src/unnamed/part_002 lines 10 to 41)

The constructor matches the input against the anchored JS regex

`([^/\s]+) / ([^/\s?]+) ((?: / [^/\s?]+)+)? (?: ? (branch|tag|commit) = (.+))?`

and throws `ScafalraError` when there is no match. The language of this
regex is deterministic: the owner cannot contain a slash, so it is exactly
the text before the first slash; name and subdir segments cannot contain a
question mark, so the first question mark after the first slash starts the
query; and the query value greedily takes the whole remainder. The embedding
parses in exactly that way. The JS dot excludes the four line terminators;
the JS whitespace class is embedded in full. -/

/-- The JS `\s` character class. -/
def isSpaceChar (c : Char) : Bool :=
  c = ' ' || c = '\t' || c = '\n' || c = '\r' || c = '\x0b' || c = '\x0c'
  || c = '\u00A0' || c = '\u1680' || ('\u2000' ≤ c && c ≤ '\u200A')
  || c = '\u2028' || c = '\u2029' || c = '\u202F' || c = '\u205F'
  || c = '\u3000' || c = '\uFEFF'

/-- Characters admitted by the owner class, JS `[^/\s]`. -/
def ownerChar (c : Char) : Bool := !(c = '/') && !(isSpaceChar c)

/-- Characters admitted by name and subdir segments, JS `[^/\s?]`. -/
def segChar (c : Char) : Bool := !(c = '/') && !(c = '?') && !(isSpaceChar c)

/-- Characters admitted by the query value, JS `.` (no line terminators). -/
def valueChar (c : Char) : Bool :=
  !(c = '\n') && !(c = '\r') && !(c = '\u2028') && !(c = '\u2029')

/-- Split a character list at the first occurrence of `sep`, when present. -/
def breakAt (sep : Char) : List Char → Option (List Char × List Char)
  | [] => none
  | c :: cs =>
    if c = sep then some ([], cs)
    else
      match breakAt sep cs with
      | none => none
      | some (a, b) => some (c :: a, b)

/-- Split a character list on every occurrence of `sep`. -/
def splitChar (sep : Char) : List Char → List (List Char)
  | [] => [[]]
  | c :: cs =>
    let r := splitChar sep cs
    if c = sep then [] :: r
    else
      match r with
      | [] => [[c]]
      | h :: t => (c :: h) :: t

/-- Strip an expected literal from the front of a character list. -/
def dropLit : List Char → List Char → Option (List Char)
  | [], l => some l
  | _ :: _, [] => none
  | c :: cs, x :: xs => if x = c then dropLit cs xs else none

inductive QueryType where
  | branch
  | tag
  | commit
deriving DecidableEq, Repr

structure RefQuery where
  type : QueryType
  value : String
deriving DecidableEq, Repr

/-- The parsed `Repository` fields: `subdir` is the raw captured group
(leading slash included), exactly as `match[3]` in the source. -/
structure Repo where
  owner : String
  name : String
  subdir : Option String
  query : Option RefQuery
deriving DecidableEq, Repr

inductive ParseErr where
  | couldNotParse (input : String)
deriving DecidableEq, Repr

/-- The literal each query alternative must start with, `=` included. -/
def kindLit : QueryType → List Char
  | .branch => "branch=".data
  | .tag => "tag=".data
  | .commit => "commit=".data

/-- The query group `(branch|tag|commit)=(.+)`: try each alternative literal,
then take the nonempty remainder (no line terminators) as the value. -/
def parseQueryPart (q : List Char) : Option (QueryType × List Char) :=
  match dropLit (kindLit .branch) q with
  | some v => if v ≠ [] && v.all valueChar then some (.branch, v) else none
  | none =>
    match dropLit (kindLit .tag) q with
    | some v => if v ≠ [] && v.all valueChar then some (.tag, v) else none
    | none =>
      match dropLit (kindLit .commit) q with
      | some v => if v ≠ [] && v.all valueChar then some (.commit, v) else none
      | none => none

/-- The `name(/segment)*` part between the first slash and the query:
the name is the text before the next slash, the optional subdir capture is
the remainder with its leading slash, each segment nonempty over the segment
class. -/
def parsePathPart (pp : List Char) : Option (List Char × Option (List Char)) :=
  match breakAt '/' pp with
  | none => if pp ≠ [] && pp.all segChar then some (pp, none) else none
  | some (nm, restPath) =>
    if nm ≠ [] && nm.all segChar
        && (splitChar '/' restPath).all (fun s => s ≠ [] && s.all segChar) then
      some (nm, some ('/' :: restPath))
    else none

/-- The whole regex on a character list: owner before the first slash, then
path part, then optional query after the first question mark. -/
def parseRepoChars (l : List Char) : Option Repo :=
  match breakAt '/' l with
  | none => none
  | some (ow, rest) =>
    if ow ≠ [] && ow.all ownerChar then
      match breakAt '?' rest with
      | none =>
        match parsePathPart rest with
        | none => none
        | some (nm, sub) =>
          some ⟨String.mk ow, String.mk nm, sub.map String.mk, none⟩
      | some (pp, qq) =>
        match parsePathPart pp with
        | none => none
        | some (nm, sub) =>
          match parseQueryPart qq with
          | none => none
          | some (qt, v) =>
            some ⟨String.mk ow, String.mk nm, sub.map String.mk,
              some ⟨qt, String.mk v⟩⟩
    else none

/-- The `Repository` constructor: parse or throw `ScafalraError`. -/
def repositoryParse (s : String) : Except ParseErr Repo :=
  match parseRepoChars s.data with
  | some r => .ok r
  | none => .error (.couldNotParse s)

theorem breakAt_eq_none_of_not_mem (sep : Char) (l : List Char)
    (h : sep ∉ l) : breakAt sep l = none := by
  induction l with
  | nil => rfl
  | cons c cs ih =>
    have hc : ¬(c = sep) := fun he => h (by rw [he]; exact List.mem_cons_self sep cs)
    have hcs : sep ∉ cs := fun hm => h (List.mem_cons_of_mem c hm)
    simp only [breakAt, if_neg hc, ih hcs]

theorem breakAt_some_eq (sep : Char) (l a b : List Char)
    (h : breakAt sep l = some (a, b)) : l = a ++ sep :: b := by
  induction l generalizing a b with
  | nil => simp [breakAt] at h
  | cons c cs ih =>
    by_cases hc : c = sep
    · simp only [breakAt, if_pos hc] at h
      obtain ⟨ha, hb⟩ := Prod.mk.injEq .. ▸ (Option.some.injEq .. ▸ h)
      rw [← ha, ← hb, hc]
      rfl
    · simp only [breakAt, if_neg hc] at h
      cases hr : breakAt sep cs with
      | none => rw [hr] at h; cases h
      | some p =>
        obtain ⟨a0, b0⟩ := p
        rw [hr] at h
        simp only [Option.some.injEq, Prod.mk.injEq] at h
        obtain ⟨ha, hb⟩ := h
        rw [← ha, ← hb]
        simpa using ih a0 b0 hr

theorem splitChar_mem (sep : Char) (l : List Char) (c : Char) (hc : c ∈ l) :
    c = sep ∨ ∃ s ∈ splitChar sep l, c ∈ s := by
  induction l with
  | nil => cases hc
  | cons x xs ih =>
    by_cases hx : x = sep
    · rcases List.mem_cons.mp hc with he | hm
      · exact Or.inl (he.trans hx)
      · rcases ih hm with h | ⟨s, hs, hcs⟩
        · exact Or.inl h
        · refine Or.inr ⟨s, ?_, hcs⟩
          simp only [splitChar, if_pos hx]
          exact List.mem_cons_of_mem _ hs
    · rcases List.mem_cons.mp hc with he | hm
      · refine Or.inr ?_
        simp only [splitChar, if_neg hx]
        cases hr : splitChar sep xs with
        | nil => exact ⟨[x], by simp, by simp [he]⟩
        | cons h2 t2 => exact ⟨x :: h2, by simp, by simp [he]⟩
      · rcases ih hm with h | ⟨s, hs, hcs⟩
        · exact Or.inl h
        · simp only [splitChar, if_neg hx]
          cases hr : splitChar sep xs with
          | nil => rw [hr] at hs; cases hs
          | cons h2 t2 =>
            rw [hr] at hs
            rcases List.mem_cons.mp hs with hse | hst
            · exact Or.inr ⟨x :: h2, by simp, List.mem_cons_of_mem x (hse ▸ hcs)⟩
            · exact Or.inr ⟨s, List.mem_cons_of_mem (x :: h2) hst, hcs⟩

theorem dropLit_some_eq (lit : List Char) (l v : List Char)
    (h : dropLit lit l = some v) : l = lit ++ v := by
  induction lit generalizing l with
  | nil =>
    simp only [dropLit, Option.some.injEq] at h
    simpa using h
  | cons c cs ih =>
    cases l with
    | nil => simp [dropLit] at h
    | cons x xs =>
      by_cases hx : x = c
      · simp only [dropLit, if_pos hx] at h
        rw [hx, List.cons_append]
        exact congrArg _ (ih xs h)
      · simp [dropLit, hx] at h

theorem dropLit_marker (w : List Char) :
    ∀ k v, '=' ∉ w → '=' ∉ k →
    (dropLit (w ++ ['=']) (k ++ '=' :: v)).isSome = true → k = w := by
  induction w with
  | nil =>
    intro k v _ hk h
    cases k with
    | nil => rfl
    | cons c cs =>
      have hc : ¬(c = '=') := fun he => hk (by rw [he]; exact List.mem_cons_self ..)
      simp [dropLit, hc] at h
  | cons a w' ih =>
    intro k v hw hk h
    cases k with
    | nil =>
      have ha : ¬('=' = a) := by
        intro he
        exact hw (by rw [he]; exact List.mem_cons_self ..)
      simp [dropLit, ha] at h
    | cons c cs =>
      by_cases hc : c = a
      · simp only [List.cons_append, dropLit, if_pos hc] at h
        have := ih cs v (fun hm => hw (List.mem_cons_of_mem _ hm))
          (fun hm => hk (List.mem_cons_of_mem _ hm)) h
        rw [hc, this]
      · simp [dropLit, hc] at h

theorem dropLit_needs_eq (w : List Char) :
    ∀ q, (dropLit (w ++ ['=']) q).isSome = true → '=' ∈ q := by
  induction w with
  | nil =>
    intro q h
    cases q with
    | nil => simp [dropLit] at h
    | cons c cs =>
      by_cases hc : c = '='
      · rw [hc]; exact List.mem_cons_self ..
      · simp [dropLit, hc] at h
  | cons a w' ih =>
    intro q h
    cases q with
    | nil => simp [dropLit] at h
    | cons c cs =>
      by_cases hc : c = a
      · simp only [List.cons_append, dropLit, if_pos hc] at h
        exact List.mem_cons_of_mem _ (ih cs h)
      · simp [dropLit, hc] at h

theorem segChar_no_space (c : Char) (h : segChar c = true) :
    isSpaceChar c = false := by
  simp only [segChar, Bool.and_eq_true, Bool.not_eq_true'] at h
  exact h.2

theorem ownerChar_no_space (c : Char) (h : ownerChar c = true) :
    isSpaceChar c = false := by
  simp only [ownerChar, Bool.and_eq_true, Bool.not_eq_true'] at h
  exact h.2

theorem kindLit_no_space (qt : QueryType) : ∀ c ∈ kindLit qt, isSpaceChar c = false := by
  cases qt <;> decide

theorem parsePathPart_chars (pp nm : List Char) (sub : Option (List Char))
    (h : parsePathPart pp = some (nm, sub)) :
    ∀ c ∈ pp, c = '/' ∨ segChar c = true := by
  intro c hc
  unfold parsePathPart at h
  split at h
  next hb =>
    split at h
    next hcond =>
      right
      simp only [Bool.and_eq_true] at hcond
      exact List.all_eq_true.mp hcond.2 c hc
    next => cases h
  next nm0 restPath hb =>
    split at h
    next hcond =>
      simp only [Bool.and_eq_true] at hcond
      obtain ⟨⟨_, hnm⟩, hsegs⟩ := hcond
      have hpp := breakAt_some_eq '/' pp nm0 restPath hb
      rw [hpp] at hc
      rcases List.mem_append.mp hc with hcn | hcr
      · exact Or.inr (List.all_eq_true.mp hnm c hcn)
      · rcases List.mem_cons.mp hcr with he | hm
        · exact Or.inl he
        · rcases splitChar_mem '/' restPath c hm with he | ⟨s, hs, hcs⟩
          · exact Or.inl he
          · have := List.all_eq_true.mp hsegs s hs
            simp only [Bool.and_eq_true] at this
            exact Or.inr (List.all_eq_true.mp this.2 c hcs)
    next => cases h

theorem parsePathPart_no_space (pp nm : List Char) (sub : Option (List Char))
    (h : parsePathPart pp = some (nm, sub)) :
    ∀ c ∈ pp, isSpaceChar c = false := by
  intro c hc
  rcases parsePathPart_chars pp nm sub h c hc with he | hs
  · rw [he]; rfl
  · exact segChar_no_space c hs

theorem parseQueryPart_some_eq (q : List Char) (qt : QueryType) (v : List Char)
    (h : parseQueryPart q = some (qt, v)) : q = kindLit qt ++ v := by
  unfold parseQueryPart at h
  split at h
  next v0 hbr =>
    split at h
    next =>
      simp only [Option.some.injEq, Prod.mk.injEq] at h
      obtain ⟨hqt, hv⟩ := h
      rw [← hqt, ← hv]
      exact dropLit_some_eq _ _ _ hbr
    next => cases h
  next hbr =>
    split at h
    next v0 htg =>
      split at h
      next =>
        simp only [Option.some.injEq, Prod.mk.injEq] at h
        obtain ⟨hqt, hv⟩ := h
        rw [← hqt, ← hv]
        exact dropLit_some_eq _ _ _ htg
      next => cases h
    next htg =>
      split at h
      next v0 hcm =>
        split at h
        next =>
          simp only [Option.some.injEq, Prod.mk.injEq] at h
          obtain ⟨hqt, hv⟩ := h
          rw [← hqt, ← hv]
          exact dropLit_some_eq _ _ _ hcm
        next => cases h
      next hcm => cases h

theorem parseRepoChars_no_slash (l : List Char) (h : '/' ∉ l) :
    parseRepoChars l = none := by
  unfold parseRepoChars
  rw [breakAt_eq_none_of_not_mem '/' l h]

theorem parseRepoChars_space_in_value (l : List Char) (r : Repo)
    (hp : parseRepoChars l = some r) :
    ∀ c ∈ l, isSpaceChar c = true → ∃ q, r.query = some q ∧ c ∈ q.value.data := by
  intro c hc hs
  unfold parseRepoChars at hp
  split at hp
  next => cases hp
  next ow rest hb =>
    split at hp
    next how =>
      simp only [Bool.and_eq_true] at how
      have hl := breakAt_some_eq '/' l ow rest hb
      rw [hl] at hc
      rcases List.mem_append.mp hc with hco | hcr
      · have hns := ownerChar_no_space c (List.all_eq_true.mp how.2 c hco)
        rw [hns] at hs
        exact Bool.noConfusion hs
      · rcases List.mem_cons.mp hcr with he | hcrest
        · have hslash : isSpaceChar '/' = false := by decide
          rw [he, hslash] at hs
          exact Bool.noConfusion hs
        · split at hp
          next hq =>
            split at hp
            next => cases hp
            next nm sub hpp =>
              have hns := parsePathPart_no_space rest nm sub hpp c hcrest
              rw [hns] at hs
              exact Bool.noConfusion hs
          next pp qq hq =>
            split at hp
            next => cases hp
            next nm sub hpp =>
              split at hp
              next => cases hp
              next qt v hqq =>
                have hrest := breakAt_some_eq '?' rest pp qq hq
                rw [hrest] at hcrest
                rcases List.mem_append.mp hcrest with hcp | hcq
                · have hns := parsePathPart_no_space pp nm sub hpp c hcp
                  rw [hns] at hs
                  exact Bool.noConfusion hs
                · rcases List.mem_cons.mp hcq with he | hcqq
                  · have hqm : isSpaceChar '?' = false := by decide
                    rw [he, hqm] at hs
                    exact Bool.noConfusion hs
                  · have hqeq := parseQueryPart_some_eq qq qt v hqq
                    rw [hqeq] at hcqq
                    rcases List.mem_append.mp hcqq with hck | hcv
                    · have hns := kindLit_no_space qt c hck
                      rw [hns] at hs
                      exact Bool.noConfusion hs
                    · simp only [Option.some.injEq] at hp
                      refine ⟨⟨qt, String.mk v⟩, ?_, hcv⟩
                      rw [← hp]
    next => cases hp

theorem dropLit_kindLit_none (qt : QueryType) (q : List Char) (h : '=' ∉ q) :
    dropLit (kindLit qt) q = none := by
  cases hd : dropLit (kindLit qt) q with
  | none => rfl
  | some v =>
    obtain ⟨w, hw, hkw⟩ : ∃ w, '=' ∉ w ∧ kindLit qt = w ++ ['='] := by
      cases qt
      · exact ⟨"branch".data, by decide, by decide⟩
      · exact ⟨"tag".data, by decide, by decide⟩
      · exact ⟨"commit".data, by decide, by decide⟩
    rw [hkw] at hd
    exact absurd (dropLit_needs_eq w q (by rw [hd]; rfl)) h

theorem parseQueryPart_none_of_no_eq (q : List Char) (h : '=' ∉ q) :
    parseQueryPart q = none := by
  unfold parseQueryPart
  rw [dropLit_kindLit_none .branch q h, dropLit_kindLit_none .tag q h,
    dropLit_kindLit_none .commit q h]

theorem parseRepoChars_bad_query (q : List Char) (hq : parseQueryPart q = none) :
    parseRepoChars ('a' :: '/' :: 'b' :: '?' :: q) = none := by
  have h1 : parseRepoChars ('a' :: '/' :: 'b' :: '?' :: q)
      = (match parseQueryPart q with
        | none => none
        | some (qt, v) =>
          some ⟨"a", "b", none, some ⟨qt, String.mk v⟩⟩) := rfl
  rw [h1, hq]

theorem parseQueryPart_none_of_unknown_kind (k v : List Char) (hk : '=' ∉ k)
    (hb : k ≠ "branch".data) (ht : k ≠ "tag".data) (hc : k ≠ "commit".data) :
    parseQueryPart (k ++ '=' :: v) = none := by
  have hnone : ∀ qt : QueryType, dropLit (kindLit qt) (k ++ '=' :: v) = none := by
    intro qt
    cases hd : dropLit (kindLit qt) (k ++ '=' :: v) with
    | none => rfl
    | some v0 =>
      obtain ⟨w, hw, hkw, hwne⟩ :
          ∃ w, '=' ∉ w ∧ kindLit qt = w ++ ['='] ∧ k ≠ w := by
        cases qt
        · exact ⟨"branch".data, by decide, by decide, hb⟩
        · exact ⟨"tag".data, by decide, by decide, ht⟩
        · exact ⟨"commit".data, by decide, by decide, hc⟩
      rw [hkw] at hd
      exact absurd (dropLit_marker w k v hw hk (by rw [hd]; rfl)) hwne
  unfold parseQueryPart
  rw [hnone .branch, hnone .tag, hnone .commit]

/-- Counterexample to claim C4 as stated: the claim has parse failing on
every input with embedded whitespace, but an input whose whitespace sits
inside the query value parses successfully. -/
theorem C4_counterexample_whitespace_value_parses :
    repositoryParse "a/b?tag=v 1"
      = .ok ⟨"a", "b", none, some ⟨.tag, "v 1"⟩⟩ ∧
    "a/b?tag=v 1".data.any isSpaceChar = true :=
  ⟨rfl, by decide⟩

/-- Claim C4 (amended): the reference grammar is a pure function with
`parse a/b` giving owner a, name b, no subdir and no query;
`parse a/b/c/d?tag=v1` giving the subdir capture `/c/d` (segments c, d) and
a tag query with value v1; and parse failing on every input without a
slash (such as `a`), on embedded whitespace anywhere outside a query value
(whitespace inside the value of a well-formed query is accepted), on a
malformed query (no `=` after the first `?` following the first slash), and
on an unknown query kind (any kind outside branch, tag, commit). -/
theorem C4_reference_grammar :
    repositoryParse "a/b" = .ok ⟨"a", "b", none, none⟩ ∧
    repositoryParse "a/b/c/d?tag=v1"
      = .ok ⟨"a", "b", some "/c/d", some ⟨.tag, "v1"⟩⟩ ∧
    splitChar '/' "c/d".data = ["c".data, "d".data] ∧
    repositoryParse "a" = .error (.couldNotParse "a") ∧
    (∀ l : List Char, '/' ∉ l → parseRepoChars l = none) ∧
    (∀ (l : List Char) (r : Repo), parseRepoChars l = some r →
      ∀ c ∈ l, isSpaceChar c = true → ∃ q, r.query = some q ∧ c ∈ q.value.data) ∧
    (∀ q : List Char, '=' ∉ q →
      parseRepoChars ('a' :: '/' :: 'b' :: '?' :: q) = none) ∧
    (∀ k v : List Char, '=' ∉ k → k ≠ "branch".data → k ≠ "tag".data →
      k ≠ "commit".data →
      parseRepoChars ('a' :: '/' :: 'b' :: '?' :: (k ++ '=' :: v)) = none) :=
  ⟨rfl, rfl, by decide, rfl,
   parseRepoChars_no_slash,
   parseRepoChars_space_in_value,
   fun q h => parseRepoChars_bad_query q (parseQueryPart_none_of_no_eq q h),
   fun k v hk hb ht hc => parseRepoChars_bad_query (k ++ '=' :: v)
     (parseQueryPart_none_of_unknown_kind k v hk hb ht hc)⟩

/-- Concrete instantiation of claim C4: the failing alternatives evaluated
at concrete inputs (no slash; whitespace in the owner; a query with no
equals sign; the unknown kind foo, the input of the repository's own
invalid-repo test). -/
theorem C4_reference_grammar_witness :
    repositoryParse "a/b" = .ok ⟨"a", "b", none, none⟩ ∧
    parseRepoChars "nope".data = none ∧
    parseRepoChars ('a' :: '/' :: 'b' :: '?' :: "tag".data) = none ∧
    parseRepoChars ('a' :: '/' :: 'b' :: '?' :: ("foo".data ++ '=' :: "bar".data))
      = none :=
  ⟨C4_reference_grammar.1,
   C4_reference_grammar.2.2.2.2.1 "nope".data (by decide),
   C4_reference_grammar.2.2.2.2.2.2.1 "tag".data (by decide),
   C4_reference_grammar.2.2.2.2.2.2.2 "foo".data "bar".data (by decide)
     (by decide) (by decide) (by decide)⟩

end Scaf
